import Mathlib

/-!
Verification development for the photo curation pipeline of this repository
(`scripts/photo_sort.py`, with the face-match variant `scripts/categorise_photos.py`).

The Python code is shallowly embedded:
* strings are modelled as `List Char` (`Str`), Python `float` arithmetic as `ℚ`,
  `datetime.date` values as `PhotoDate`;
* the per-file dictionaries built in `main` become the `ImageRecord` structure;
* the MD5 digest of `hashlib` is an opaque parameter `md5 : List Nat → List Nat`
  (file bytes are `List Nat`); `get_image_hash` returns `none` when the file
  cannot be read, mirroring the `except: return None` branch;
* `sorted(key=..., reverse=True)` (a stable descending sort) is modelled by
  `List.insertionSort` with the relation `b.score ≤ a.score`, which is the
  stable descending insertion sort;
* file-system results (readability, decoded score, modification time) are
  inputs of the embedded functions, since the Python code obtains them from
  collaborators (`cv2`, `PIL`, `os`).
-/

abbrev Str := List Char

/-- A calendar date as produced by `datetime.date`. -/
structure PhotoDate where
  year : Nat
  month : Nat
  day : Nat
deriving DecidableEq, Repr

/-- The per-photo dictionary `{'path': ..., 'score': ..., 'date': ..., 'location': ...}`
built in `photo_sort.main`. -/
structure ImageRecord where
  path : Str
  score : ℚ
  date : PhotoDate
  location : Option Str
deriving DecidableEq, Repr

/-! ### Characters and decimal rendering -/

/-- The uppercase/lowercase ASCII letter pairs. -/
def upperLowerPairs : List (Char × Char) :=
  [('A', 'a'), ('B', 'b'), ('C', 'c'), ('D', 'd'), ('E', 'e'), ('F', 'f'), ('G', 'g'),
   ('H', 'h'), ('I', 'i'), ('J', 'j'), ('K', 'k'), ('L', 'l'), ('M', 'm'), ('N', 'n'),
   ('O', 'o'), ('P', 'p'), ('Q', 'q'), ('R', 'r'), ('S', 's'), ('T', 't'), ('U', 'u'),
   ('V', 'v'), ('W', 'w'), ('X', 'x'), ('Y', 'y'), ('Z', 'z')]

/-- ASCII lowercasing, the effect of Python `str.lower` on ASCII file names. -/
def lowerChar (c : Char) : Char :=
  match upperLowerPairs.find? (fun p => decide (p.1 = c)) with
  | some p => p.2
  | none => c

/-- Decimal digits of `n`, most significant first, with an explicit fuel
argument to keep the recursion structural.  `natChars n` below renders `n`
the way Python `str(n)` does. -/
def natCharsAux : Nat → Nat → List Char
  | 0, _ => []
  | _ + 1, 0 => []
  | fuel + 1, n + 1 => natCharsAux fuel ((n + 1) / 10) ++ [Nat.digitChar ((n + 1) % 10)]

/-- Decimal rendering of a natural number (Python `str(n)`). -/
def natChars (n : Nat) : Str :=
  if n = 0 then ['0'] else natCharsAux n n

/-- Left-inverse of `natChars`: read a digit string back into a number. -/
def charsToNat (s : Str) : Nat :=
  s.foldl (fun a c => 10 * a + (c.toNat - 48)) 0

/-- `strftime` style zero padding to width `w`. -/
def padNat (w n : Nat) : Str :=
  List.replicate (w - (natChars n).length) '0' ++ natChars n

/-- `date.strftime("%Y-%m-%d")`. -/
def dateIso (d : PhotoDate) : Str :=
  padNat 4 d.year ++ '-' :: (padNat 2 d.month ++ '-' :: padNat 2 d.day)

/-! ### Path manipulation (`os.path`) -/

/-- Split a character list at every occurrence of `sep`. -/
def splitOnChar (sep : Char) : List Char → List (List Char)
  | [] => [[]]
  | c :: cs =>
    match splitOnChar sep cs with
    | [] => [[]]
    | h :: t => if c = sep then [] :: h :: t else (c :: h) :: t

/-- `os.path.basename` for POSIX paths: the last `/`-separated component. -/
def basenameOf (p : Str) : Str :=
  ((splitOnChar '/' p).reverse).headD []

/-- `os.path.basename(os.path.dirname(p))`: the name of the directory holding `p`,
i.e. the second-to-last `/`-separated component. -/
def folderOf (p : Str) : Str :=
  match (splitOnChar '/' p).reverse with
  | _ :: f :: _ => f
  | _ => []

/-- Index of the last `'.'` in a character list, if any. -/
def lastDot : List Char → Option Nat
  | [] => none
  | c :: cs =>
    match lastDot cs with
    | some t => some (t + 1)
    | none => if c = '.' then some 0 else none

/-- The extension part of `os.path.splitext`: everything from the last dot on,
unless every character before that dot is itself a dot (leading dots of a
hidden file are part of the root, not an extension). -/
def splitextExt (base : Str) : Str :=
  match lastDot base with
  | none => []
  | some i => if (base.take i).any (fun c => decide (c ≠ '.')) then base.drop i else []

/-- Extension of the basename of a path, as computed in `copy_selected_photos`
(`base, ext = os.path.splitext(os.path.basename(src))`). -/
def extOf (p : Str) : Str := splitextExt (basenameOf p)

/-- The extension filter of `photo_sort.main`:
`file.lower().endswith(('.jpg', '.jpeg', '.png'))`. -/
def isImageFile (name : Str) : Bool :=
  let lw := name.map lowerChar
  ".jpg".toList.isSuffixOf lw || ".jpeg".toList.isSuffixOf lw || ".png".toList.isSuffixOf lw

/-! ### EXIF model (`PIL.Image._getexif` results, `ExifTags.TAGS`) -/

abbrev GpsRational := Int × Int

abbrev GpsTriple := GpsRational × GpsRational × GpsRational

/-- Values stored in the EXIF dictionary: datetime strings, the GPS sub-dictionary
(whose keys `2` and `4` hold degree/minute/second rational triples), or anything else. -/
inductive ExifValue where
  | str (s : Str)
  | gps (g : List (Nat × GpsTriple))
  | other
deriving DecidableEq, Repr

/-- The EXIF dictionary, in its iteration order. -/
abbrev ExifData := List (Nat × ExifValue)

/-- The entries of `ExifTags.TAGS` consulted by the scripts. -/
def decodeTag (t : Nat) : Option String :=
  if t = 306 then some "DateTime"
  else if t = 34853 then some "GPSInfo"
  else if t = 36867 then some "DateTimeOriginal"
  else if t = 36868 then some "DateTimeDigitized"
  else none

/-! ### Calendar validation (`datetime.strptime` / the `datetime` constructor) -/

def isLeapYear (y : Nat) : Bool :=
  (y % 4 == 0 && !(y % 100 == 0)) || y % 400 == 0

def daysInMonth (y m : Nat) : Nat :=
  if m = 2 then (if isLeapYear y then 29 else 28)
  else if m = 4 ∨ m = 6 ∨ m = 9 ∨ m = 11 then 30
  else 31

/-- Construct a date the way the `datetime` constructor validates one
(`MINYEAR = 1`, month 1–12, day within the month). -/
def mkValidDate (y m d : Nat) : Option PhotoDate :=
  if 1 ≤ y ∧ y ≤ 9999 ∧ 1 ≤ m ∧ m ≤ 12 ∧ 1 ≤ d ∧ d ≤ daysInMonth y m then
    some ⟨y, m, d⟩
  else none

/-- A 4-digit `%Y` field (CPython `_strptime` matches exactly four digits). -/
def yearField (s : Str) : Option Nat :=
  if s.length = 4 ∧ s.all Char.isDigit = true ∧ 1 ≤ charsToNat s then some (charsToNat s)
  else none

/-- A 1–2 digit numeric field with an inclusive value range, as the
`%m`/`%d`/`%H`/`%M`/`%S` patterns of CPython `_strptime` accept. -/
def digitField (s : Str) (lo hi : Nat) : Option Nat :=
  if 1 ≤ s.length ∧ s.length ≤ 2 ∧ s.all Char.isDigit = true ∧
      lo ≤ charsToNat s ∧ charsToNat s ≤ hi then
    some (charsToNat s)
  else none

/-- `datetime.strptime(value, "%Y:%m:%d %H:%M:%S").date()`, returning `none` where
Python raises (seconds 60–61 pass the field pattern but fail the constructor,
so the net effect is a 0–59 bound). -/
def parseExifDT (s : Str) : Option PhotoDate :=
  match splitOnChar ' ' s with
  | [dp, tp] =>
    match splitOnChar ':' dp, splitOnChar ':' tp with
    | [ys, ms, ds], [hs, mins, ss] =>
      match yearField ys, digitField ms 1 12, digitField ds 1 31,
            digitField hs 0 23, digitField mins 0 59, digitField ss 0 59 with
      | some y, some m, some d, some _, some _, some _ => mkValidDate y m d
      | _, _, _, _, _, _ => none
    | _, _ => none
  | _ => none

/-- Whether an EXIF entry's decoded tag is one of
`["DateTimeOriginal", "DateTimeDigitized", "DateTime"]`. -/
def isCaptureEntry (e : Nat × ExifValue) : Bool :=
  decide (decodeTag e.1 = some "DateTimeOriginal") ||
  decide (decodeTag e.1 = some "DateTimeDigitized") ||
  decide (decodeTag e.1 = some "DateTime")

/-- Parsing the value of a capture-time entry; a non-string value makes
`strptime` raise `TypeError`, which the caller's `except` turns into a fallthrough. -/
def parseExifValue : ExifValue → Option PhotoDate
  | .str s => parseExifDT s
  | _ => none

/-- The EXIF phase of `get_image_date`: scan the dictionary in iteration order and
return from the first entry whose decoded tag is a capture tag; a parse failure
raises and is swallowed by the surrounding `except`, yielding `none` (the
filename fallback). `none` input models an unreadable image or absent EXIF. -/
def getExifDate : Option ExifData → Option PhotoDate
  | none => none
  | some entries =>
    match entries.find? isCaptureEntry with
    | some e => parseExifValue e.2
    | none => none

/-! ### Filename patterns (`re.search`) -/

/-- Whether `\d{4}-\d{2}-\d{2}` matches at the start of `cs`. -/
def matchesDash (cs : Str) : Bool :=
  match cs with
  | c1 :: c2 :: c3 :: c4 :: c5 :: c6 :: c7 :: c8 :: c9 :: c10 :: _ =>
    c1.isDigit && c2.isDigit && c3.isDigit && c4.isDigit && c5 == '-' &&
    c6.isDigit && c7.isDigit && c8 == '-' && c9.isDigit && c10.isDigit
  | _ => false

/-- `re.search(r'(\d{4}-\d{2}-\d{2})', s)`: leftmost match. -/
def searchDash : Str → Option Str
  | [] => none
  | c :: cs => if matchesDash (c :: cs) then some ((c :: cs).take 10) else searchDash cs

/-- Whether `\d{n}` matches at the start of `cs`. -/
def matchesDigits (n : Nat) (cs : Str) : Bool :=
  decide (n ≤ cs.length) && (cs.take n).all Char.isDigit

/-- `re.search(r'(\d{n})', s)`: leftmost run of `n` digits. -/
def searchDigits (n : Nat) : Str → Option Str
  | [] => none
  | c :: cs => if matchesDigits n (c :: cs) then some ((c :: cs).take n) else searchDigits n cs

/-- `datetime.strptime(m, "%Y-%m-%d")` on a 10-character regex match. -/
def parseDash (s : Str) : Option PhotoDate :=
  match s with
  | [y1, y2, y3, y4, _, m1, m2, _, d1, d2] =>
    mkValidDate (charsToNat [y1, y2, y3, y4]) (charsToNat [m1, m2]) (charsToNat [d1, d2])
  | _ => none

/-- `datetime.strptime(m, "%Y%m%d")` on an 8-digit regex match: the field
patterns force a 4/2/2 split of the eight digits. -/
def parse8 (s : Str) : Option PhotoDate :=
  match s with
  | [y1, y2, y3, y4, m1, m2, d1, d2] =>
    mkValidDate (charsToNat [y1, y2, y3, y4]) (charsToNat [m1, m2]) (charsToNat [d1, d2])
  | _ => none

/-- `datetime.strptime(m, "%Y%m%d%H%M%S").date()` on a 14-digit regex match:
a 4/2/2/2/2/2 split, with the time fields validated and then discarded. -/
def parse14 (s : Str) : Option PhotoDate :=
  match s with
  | [y1, y2, y3, y4, m1, m2, d1, d2, h1, h2, mi1, mi2, s1, s2] =>
    if charsToNat [h1, h2] ≤ 23 ∧ charsToNat [mi1, mi2] ≤ 59 ∧ charsToNat [s1, s2] ≤ 59 then
      mkValidDate (charsToNat [y1, y2, y3, y4]) (charsToNat [m1, m2]) (charsToNat [d1, d2])
    else none
  | _ => none

/-- `get_image_date` of `photo_sort.py`: EXIF capture tag, then the `YYYY-MM-DD`
filename pattern, then 8 contiguous digits, then 14 contiguous digits, then the
file modification time (supplied as `mtimeDate`, the terminal fallback). -/
def get_image_date (exif : Option ExifData) (filename : Str) (mtimeDate : PhotoDate) : PhotoDate :=
  match getExifDate exif with
  | some d => d
  | none =>
    match (searchDash filename).bind parseDash with
    | some d => d
    | none =>
      match (searchDigits 8 filename).bind parse8 with
      | some d => d
      | none =>
        match (searchDigits 14 filename).bind parse14 with
        | some d => d
        | none => mtimeDate

/-! ### Location (`get_image_location`) -/

/-- `convert_to_degrees`: `d[0]/d[1] + (m[0]/m[1])/60 + (s[0]/s[1])/3600`;
a zero denominator raises `ZeroDivisionError`, which the caller's `except`
turns into an overall `None`. -/
def convertToDegrees (t : GpsTriple) : Option ℚ :=
  if t.1.2 = 0 ∨ t.2.1.2 = 0 ∨ t.2.2.2 = 0 then none
  else some ((t.1.1 : ℚ) / (t.1.2 : ℚ) + ((t.2.1.1 : ℚ) / (t.2.1.2 : ℚ)) / 60 +
    ((t.2.2.1 : ℚ) / (t.2.2.2 : ℚ)) / 3600)

/-- The loop collecting `gps_info`: the last `GPSInfo` entry wins; a `GPSInfo`
entry holding a non-dictionary value leads to the same `None` outcome as an
empty dictionary (the later subscripting raises), modelled by `[]`. -/
def extractGps (entries : ExifData) : List (Nat × GpsTriple) :=
  entries.foldl (fun acc e =>
    if decodeTag e.1 = some "GPSInfo" then
      match e.2 with
      | .gps g => g
      | _ => []
    else acc) []

/-- Dictionary lookup `gps_info[k]` guarded by `k in gps_info`. -/
def gpsLookup (g : List (Nat × GpsTriple)) (k : Nat) : Option GpsTriple :=
  (g.find? (fun e => decide (e.1 = k))).map (fun e => e.2)

def stripTrailingZeros (s : Str) : Str :=
  (s.reverse.dropWhile (fun c => c == '0')).reverse

/-- Fractional digits of a coordinate scaled by `10^5`: zero-padded to five
places, trailing zeros stripped, at least one digit (CPython prints `51.0`,
`0.001`, `51.50735` for the corresponding values). -/
def fracChars (n : Nat) : Str :=
  let t := stripTrailingZeros (padNat 5 n)
  if t = [] then ['0'] else t

/-- `f"{round(x, 5)}"`: round to five decimals and render in decimal notation.
Rounding ties (which cannot occur for the exact 5-decimal values of interest)
are modelled by nearest-integer rounding. -/
def formatCoord (q : ℚ) : Str :=
  let n : ℤ := round (q * 100000)
  (if n < 0 then ['-'] else []) ++ natChars (n.natAbs / 100000) ++ '.' :: fracChars (n.natAbs % 100000)

/-- `get_image_location` of `photo_sort.py`. -/
def get_image_location (exif : Option ExifData) : Option Str :=
  match exif with
  | none => none
  | some entries =>
    if entries = [] then none
    else
      let gps := extractGps entries
      if gps = [] then none
      else
        match gpsLookup gps 2 with
        | none => none
        | some t2 =>
          match convertToDegrees t2 with
          | none => none
          | some lat =>
            match gpsLookup gps 4 with
            | none => none
            | some t4 =>
              match convertToDegrees t4 with
              | none => none
              | some lon =>
                if lat ≠ 0 ∧ lon ≠ 0 then
                  some (formatCoord lat ++ '_' :: formatCoord lon)
                else none

/-- `info.get('location') or "NoLocation"` in `copy_selected_photos`
(an empty string is falsy and also yields the sentinel). -/
def locationString : Option Str → Str
  | none => "NoLocation".toList
  | some s => if s = [] then "NoLocation".toList else s

/-! ### Grouping and selection -/

/-- Configured per-event limit (`TOP_PHOTOS_PER_EVENT = 5`). -/
def TOP_PHOTOS_PER_EVENT : Nat := 5

/-- Configured global limit (`GLOBAL_LIMIT = 150`). -/
def GLOBAL_LIMIT : Nat := 150

/-- `sorted(photos, key=lambda x: x['score'], reverse=True)`: Python's sort is
stable, and `reverse=True` keeps equal keys in their original order, which is
exactly the descending stable insertion sort. -/
def sortByScoreDesc (l : List ImageRecord) : List ImageRecord :=
  l.insertionSort (fun a b => b.score ≤ a.score)

/-- One step of the `defaultdict` update `events[info['date']].append(info)`:
append to the bucket of an existing key, else add a new key at the end
(Python dictionaries iterate in insertion order). -/
def addToEvents (r : ImageRecord) :
    List (PhotoDate × List ImageRecord) → List (PhotoDate × List ImageRecord)
  | [] => [(r.date, [r])]
  | e :: es => if e.1 = r.date then (e.1, e.2 ++ [r]) :: es else e :: addToEvents r es

/-- `group_photos_by_event` of `photo_sort.py`. -/
def group_photos_by_event (recs : List ImageRecord) : List (PhotoDate × List ImageRecord) :=
  recs.foldl (fun evs r => addToEvents r evs) []

/-- `select_top_photos` of `photo_sort.py`: per event keep the top `top_n` by
score, then rank the pooled survivors globally and keep `global_limit`. -/
def select_top_photos (events : List (PhotoDate × List ImageRecord))
    (top_n global_limit : Nat) : List ImageRecord :=
  (sortByScoreDesc ((events.map (fun e => (sortByScoreDesc e.2).take top_n)).flatten)).take
    global_limit

/-! ### The scan loop of `photo_sort.main` -/

/-- One candidate file of the recursive walk, together with the results the
collaborators would report for it: its directory and basename, its raw bytes
(`none` when unreadable), its quality score, its resolved capture date and its
resolved location. -/
structure ScanFile where
  dir : Str
  name : Str
  bytes : Option (List Nat)
  score : ℚ
  date : PhotoDate
  location : Option Str
deriving DecidableEq, Repr

/-- `os.path.join(root, file)`. -/
def pathOf (f : ScanFile) : Str := f.dir ++ '/' :: f.name

/-- The dictionary appended to `photo_info` for a kept file. -/
def toRecord (f : ScanFile) : ImageRecord :=
  ⟨pathOf f, f.score, f.date, f.location⟩

/-- `get_image_hash`: MD5 of the file's bytes, or `None` when reading fails. -/
def get_image_hash (md5 : List Nat → List Nat) (f : ScanFile) : Option (List Nat) :=
  f.bytes.map md5

/-- The body of the scan loop in `photo_sort.main`: skip non-image extensions,
skip files whose hash is already in `seen_hashes`, otherwise record the hash
and keep the file's record. -/
def scanGo (md5 : List Nat → List Nat) (seen : List (Option (List Nat))) :
    List ScanFile → List ImageRecord
  | [] => []
  | f :: fs =>
    if isImageFile f.name then
      if get_image_hash md5 f ∈ seen then scanGo md5 seen fs
      else toRecord f :: scanGo md5 (get_image_hash md5 f :: seen) fs
    else scanGo md5 seen fs

/-- The deduplicating scan of `photo_sort.main`, producing `photo_info`. -/
def scanPhotos (md5 : List Nat → List Nat) (files : List ScanFile) : List ImageRecord :=
  scanGo md5 [] files

/-! ### Materializer (`copy_selected_photos`) and report -/

/-- `f"{date_str}_{location_str}_{folder_name}_{idx}{ext}"`: the output name of
the record at 1-based rank `idx`. -/
def dstNameOf (r : ImageRecord) (idx : Nat) : Str :=
  dateIso r.date ++ '_' ::
    (locationString r.location ++ '_' :: (folderOf r.path ++ '_' :: (natChars idx ++ extOf r.path)))

/-- The copy loop of `photo_sort.copy_selected_photos`: `ok idx` tells whether
`shutil.copy2` succeeds for the item at rank `idx`.  The first component
collects the per-item success messages `(idx, src, dst)`, the second the
per-item error messages (the source paths of failed copies).  A failure does
not stop the loop. -/
def copyGo (ok : Nat → Bool) (outDir : Str) :
    Nat → List ImageRecord → List (Nat × Str × Str) × List Str
  | _, [] => ([], [])
  | idx, r :: rs =>
    let rest := copyGo ok outDir (idx + 1) rs
    if ok idx then ((idx, r.path, outDir ++ '/' :: dstNameOf r idx) :: rest.1, rest.2)
    else (rest.1, r.path :: rest.2)

/-- `copy_selected_photos` of `photo_sort.py` (`enumerate(selected_photos, start=1)`). -/
def copy_selected_photos (ok : Nat → Bool) (outDir : Str) (selected : List ImageRecord) :
    List (Nat × Str × Str) × List Str :=
  copyGo ok outDir 1 selected

/-- A cell of the CSV report. -/
inductive CellValue where
  | str (s : Str)
  | num (q : ℚ)
  | date (d : PhotoDate)
  | blank
deriving DecidableEq, Repr

/-- The report row of one selected record: `pd.DataFrame(selected_photos)`
serializes each photo dictionary with its keys in insertion order. -/
def rowOf (r : ImageRecord) : List (String × CellValue) :=
  [("path", CellValue.str r.path), ("score", CellValue.num r.score),
   ("date", CellValue.date r.date),
   ("location", match r.location with | some s => CellValue.str s | none => CellValue.blank)]

/-- The rows of `curated_photos_report.csv`: one per selected record. -/
def reportRows (selected : List ImageRecord) : List (List (String × CellValue)) :=
  selected.map rowOf

/-- Dictionary lookup `events[d]` over the association-list model of the
`defaultdict`: the bucket of the (unique) key equal to `d`, or `[]`. -/
def bucketOf (evs : List (PhotoDate × List ImageRecord)) (d : PhotoDate) : List ImageRecord :=
  match evs.find? (fun e => decide (e.1 = d)) with
  | some e => e.2
  | none => []

/-! ## Theorems -/

/-! ### Decimal rendering lemmas -/

theorem digitChar_isDigit : ∀ d, d < 10 → (Nat.digitChar d).isDigit = true := by decide

theorem digitChar_toNat : ∀ d, d < 10 → (Nat.digitChar d).toNat - 48 = d := by decide

theorem natCharsAux_foldl (fuel : Nat) :
    ∀ n a, n ≤ fuel →
      List.foldl (fun a c => 10 * a + (c.toNat - 48)) a (natCharsAux fuel n) =
        a * 10 ^ (natCharsAux fuel n).length + n := by
  induction fuel with
  | zero =>
    intro n a hn
    interval_cases n
    simp [natCharsAux]
  | succ fuel ih =>
    intro n a hn
    match n with
    | 0 => simp [natCharsAux]
    | m + 1 =>
      have hq : (m + 1) / 10 ≤ fuel := by
        have h1 : (m + 1) / 10 < m + 1 := Nat.div_lt_self (Nat.succ_pos m) (by omega)
        omega
      have hr : (m + 1) % 10 < 10 := Nat.mod_lt _ (by omega)
      simp only [natCharsAux, List.foldl_append, List.foldl_cons, List.foldl_nil,
        List.length_append, List.length_singleton]
      rw [ih _ a hq, digitChar_toNat _ hr]
      have hmod : 10 * ((m + 1) / 10) + (m + 1) % 10 = m + 1 := Nat.div_add_mod _ _
      ring_nf
      omega

theorem charsToNat_natChars (n : Nat) : charsToNat (natChars n) = n := by
  unfold natChars charsToNat
  by_cases h : n = 0
  · simp [h]
  · simp only [h, if_false]
    have := natCharsAux_foldl n n 0 le_rfl
    simpa using this

theorem natChars_inj {m n : Nat} (h : natChars m = natChars n) : m = n := by
  have := congrArg charsToNat h
  rwa [charsToNat_natChars, charsToNat_natChars] at this

theorem natCharsAux_digits (fuel : Nat) :
    ∀ n c, c ∈ natCharsAux fuel n → c.isDigit = true := by
  induction fuel with
  | zero => intro n c hc; simp [natCharsAux] at hc
  | succ fuel ih =>
    intro n c hc
    match n with
    | 0 => simp [natCharsAux] at hc
    | m + 1 =>
      simp only [natCharsAux, List.mem_append, List.mem_singleton] at hc
      rcases hc with hc | hc
      · exact ih _ c hc
      · subst hc
        exact digitChar_isDigit _ (Nat.mod_lt _ (by omega))

theorem natChars_digits (n : Nat) : ∀ c ∈ natChars n, c.isDigit = true := by
  intro c hc
  unfold natChars at hc
  by_cases h : n = 0
  · simp [h] at hc; subst hc; decide
  · simp only [h, if_false] at hc
    exact natCharsAux_digits n n c hc

theorem natChars_ne_nil (n : Nat) : natChars n ≠ [] := by
  unfold natChars
  by_cases h : n = 0
  · simp [h]
  · simp only [h, if_false]
    match n, h with
    | m + 1, _ =>
      simp [natCharsAux]

/-! ### Generic list lemmas -/

theorem find?_eq_of_first {α : Type} (p : α → Bool) :
    ∀ (l : List α) (i : Nat) (hi : i < l.length),
      (∀ k (hk : k < l.length), k < i → p (l.get ⟨k, hk⟩) = false) →
      p (l.get ⟨i, hi⟩) = true → l.find? p = some (l.get ⟨i, hi⟩) := by
  intro l
  induction l with
  | nil => intro i hi; exact absurd hi (by simp)
  | cons a l ih =>
    intro i hi hfirst hp
    cases i with
    | zero =>
      simp only [List.get] at hp ⊢
      simp [List.find?, hp]
    | succ k =>
      have ha : p a = false := hfirst 0 (by simp) (Nat.succ_pos k)
      simp only [List.get] at hp ⊢
      rw [List.find?]
      rw [ha]
      exact ih k (by simpa using hi)
        (fun k' hk' hlt => hfirst (k' + 1) (by simpa using hk') (by omega)) hp

theorem searchDigits_isSome_of_run (n : Nat) (hn : 0 < n) :
    ∀ (cs : Str) (i : Nat), i + n ≤ cs.length →
      (∀ k, k < n → ∃ (hk : i + k < cs.length), (cs.get ⟨i + k, hk⟩).isDigit = true) →
      (searchDigits n cs).isSome = true := by
  intro cs
  induction cs with
  | nil => intro i hlen _; simp at hlen; omega
  | cons c cs ih =>
    intro i hlen hrun
    by_cases hm : matchesDigits n (c :: cs) = true
    · simp [searchDigits, hm]
    · rw [searchDigits]
      rw [if_neg hm]
      cases i with
      | zero =>
        exfalso
        apply hm
        unfold matchesDigits
        rw [Bool.and_eq_true]
        refine ⟨by simpa using hlen, ?_⟩
        rw [List.all_eq_true]
        intro x hx
        rw [List.mem_take_iff_getElem] at hx
        obtain ⟨j, hj, hxj⟩ := hx
        have hjn : j < n := lt_of_lt_of_le hj inf_le_left
        obtain ⟨hk, hdig⟩ := hrun j hjn
        simp only [Nat.zero_add] at hdig
        rw [← hxj]
        simpa [List.get_eq_getElem] using hdig
      | succ i =>
        apply ih i
        · simp only [List.length_cons] at hlen
          omega
        · intro k hk
          obtain ⟨hik, hdig⟩ := hrun k hk
          have hik' : i + k < cs.length := by
            simp only [List.length_cons] at hik
            omega
          refine ⟨hik', ?_⟩
          have hget : (c :: cs).get ⟨i + 1 + k, hik⟩ = cs.get ⟨i + k, hik'⟩ := by
            have harith : i + 1 + k = (i + k) + 1 := by omega
            simp only [harith, List.get_cons_succ]
          rw [← hget]
          exact hdig

/-! ### Claim C10: the 8-digit filename pattern fires before the 14-digit one -/

/-- C10: in `get_image_date`'s filename fallback (EXIF yields nothing,
no `YYYY-MM-DD` match), if the leftmost 8-contiguous-digit match parses as a
valid `YYYYMMDD` date, that date is the result — independently of the 14-digit
branch; moreover the 8-digit pattern matches inside any digit run of length ≥ 8. -/
theorem c10_eight_digit_branch_wins
    (exif : Option ExifData) (filename : Str) (mtimeDate : PhotoDate) (s : Str) (d : PhotoDate)
    (hexif : getExifDate exif = none)
    (hdash : searchDash filename = none)
    (h8 : searchDigits 8 filename = some s)
    (hp : parse8 s = some d) :
    get_image_date exif filename mtimeDate = d ∧
    ∀ cs : Str, ∀ i : Nat, i + 8 ≤ cs.length →
      (∀ k, k < 8 → ∃ (hk : i + k < cs.length), (cs.get ⟨i + k, hk⟩).isDigit = true) →
      (searchDigits 8 cs).isSome = true := by
  constructor
  · rw [get_image_date, hexif, hdash, h8]
    simp [hp]
  · exact fun cs i => searchDigits_isSome_of_run 8 (by omega) cs i

/-- Witness for C10: a filename whose only digit run is a 14-digit timestamp
with an invalid hour field still gets its date from the first 8 digits; the
14-digit parse would have failed, so without the 8-digit branch the result
would have been the modification-time fallback. -/
theorem c10_witness :
    searchDash "20240601990000.jpg".toList = none ∧
    searchDigits 8 "20240601990000.jpg".toList = some "20240601".toList ∧
    parse8 "20240601".toList = some ⟨2024, 6, 1⟩ ∧
    (searchDigits 14 "20240601990000.jpg".toList).bind parse14 = none ∧
    get_image_date none "20240601990000.jpg".toList ⟨1970, 1, 1⟩ = ⟨2024, 6, 1⟩ :=
  ⟨by decide, by decide, by decide, by decide,
    (c10_eight_digit_branch_wins none "20240601990000.jpg".toList ⟨1970, 1, 1⟩
      "20240601".toList ⟨2024, 6, 1⟩ rfl (by decide) (by decide) (by decide)).1⟩

/-! ### Claim C5: EXIF capture-tag priority -/

/-- C5 (counterexample): an EXIF block listing the generic `DateTime` tag (306)
before `DateTimeOriginal` (36867) resolves to the generic tag's value, not the
more specific original-capture value — the code takes the first capture tag in
dictionary iteration order, with no priority among the three tags. -/
theorem c5_counterexample :
    getExifDate (some [(306, ExifValue.str "2001:01:01 00:00:00".toList),
                       (36867, ExifValue.str "1999:05:05 12:00:00".toList)]) =
      some ⟨2001, 1, 1⟩ ∧
    decodeTag 36867 = some "DateTimeOriginal" ∧
    parseExifValue (ExifValue.str "1999:05:05 12:00:00".toList) = some ⟨1999, 5, 5⟩ ∧
    (⟨2001, 1, 1⟩ : PhotoDate) ≠ ⟨1999, 5, 5⟩ := by
  refine ⟨by decide, by decide, by decide, by decide⟩

/-- C5 (amended): `get_image_date` resolves the EXIF phase from the first
entry, in the metadata block's own iteration order, whose decoded tag is one of
`DateTimeOriginal`, `DateTimeDigitized`, `DateTime`; the earliest-iterated
capture tag wins regardless of which of the three it is, and if its value fails
to parse the whole EXIF phase yields nothing. -/
theorem c5_first_capture_entry_wins (entries : ExifData) (i : Nat) (hi : i < entries.length)
    (hfirst : ∀ k (hk : k < entries.length), k < i → isCaptureEntry (entries.get ⟨k, hk⟩) = false)
    (hcap : isCaptureEntry (entries.get ⟨i, hi⟩) = true) :
    getExifDate (some entries) = parseExifValue (entries.get ⟨i, hi⟩).2 := by
  rw [getExifDate]
  rw [find?_eq_of_first isCaptureEntry entries i hi hfirst hcap]

/-- Witness for C5's amended theorem: a block whose first capture tag is
`DateTimeDigitized` (at index 1, after an unrelated entry) resolves to that
entry's parsed value. -/
theorem c5_first_capture_entry_wins_witness :
    isCaptureEntry ((⟨36868, ExifValue.str "2010:12:31 10:00:00".toList⟩ : Nat × ExifValue)) = true ∧
    getExifDate (some [(1, ExifValue.other), (36868, ExifValue.str "2010:12:31 10:00:00".toList)]) =
      some ⟨2010, 12, 31⟩ := by
  refine ⟨by decide, ?_⟩
  have h := c5_first_capture_entry_wins
    [(1, ExifValue.other), (36868, ExifValue.str "2010:12:31 10:00:00".toList)] 1
    (by decide) (by decide) (by decide)
  rw [h]
  decide

/-! ### Claim C6: GPS location extraction and rendering -/

/-- C6: `get_image_location` returns a location exactly when the GPS block is
present and non-empty and both latitude (key 2) and longitude (key 4) convert
from degree/minute/second rationals to non-zero decimal degrees; the returned
string joins the two coordinates, rounded to five decimals, with `'_'` —
witnessed by coordinates `(51.50735, -0.12776)` rendering as
`"51.50735_-0.12776"` — a file without a GPS block yields no location, and a
missing location renders as the sentinel `"NoLocation"`. -/
theorem c6_location_exactly_when :
    (∀ exif : Option ExifData,
      (get_image_location exif).isSome = true ↔
        ∃ entries, exif = some entries ∧ entries ≠ [] ∧ extractGps entries ≠ [] ∧
          ∃ t2 lat t4 lon,
            gpsLookup (extractGps entries) 2 = some t2 ∧ convertToDegrees t2 = some lat ∧
            gpsLookup (extractGps entries) 4 = some t4 ∧ convertToDegrees t4 = some lon ∧
            lat ≠ 0 ∧ lon ≠ 0) ∧
    get_image_location (some [(34853, ExifValue.gps
        [(2, ((51, 1), (30, 1), (2646, 100))), (4, ((0, 1), (0, 1), (-459936, 1000)))])]) =
      some "51.50735_-0.12776".toList ∧
    get_image_location (some [(306, ExifValue.str "2024:01:01 00:00:00".toList)]) = none ∧
    locationString none = "NoLocation".toList := by
  refine ⟨?_, ?_, by decide, by decide⟩
  · intro exif
    constructor
    · intro h
      cases exif with
      | none => simp [get_image_location] at h
      | some entries =>
        refine ⟨entries, rfl, ?_⟩
        simp only [get_image_location] at h
        by_cases hne : entries = []
        · rw [if_pos hne] at h; simp at h
        · rw [if_neg hne] at h
          by_cases hg : extractGps entries = []
          · rw [if_pos hg] at h; simp at h
          · rw [if_neg hg] at h
            refine ⟨hne, hg, ?_⟩
            rcases h2 : gpsLookup (extractGps entries) 2 with _ | t2 <;> simp only [h2] at h
            · simp at h
            · rcases hc2 : convertToDegrees t2 with _ | lat <;> simp only [hc2] at h
              · simp at h
              · rcases h4 : gpsLookup (extractGps entries) 4 with _ | t4 <;> simp only [h4] at h
                · simp at h
                · rcases hc4 : convertToDegrees t4 with _ | lon <;> simp only [hc4] at h
                  · simp at h
                  · by_cases hz : lat ≠ 0 ∧ lon ≠ 0
                    · exact ⟨t2, lat, t4, lon, rfl, hc2, rfl, hc4, hz.1, hz.2⟩
                    · rw [if_neg hz] at h
                      simp at h
    · rintro ⟨entries, rfl, hne, hg, t2, lat, t4, lon, h2, hc2, h4, hc4, hl1, hl2⟩
      simp only [get_image_location, if_neg hne, if_neg hg, h2, hc2, h4, hc4]
      rw [if_pos ⟨hl1, hl2⟩]
      rfl
  · have hc2 : convertToDegrees ((51, 1), (30, 1), (2646, 100)) =
        some ((5150735 : ℚ)/100000) := by
      unfold convertToDegrees
      rw [if_neg (by norm_num)]
      congr 1
      norm_num
    have hc4 : convertToDegrees ((0, 1), (0, 1), (-459936, 1000)) =
        some ((-12776 : ℚ)/100000) := by
      unfold convertToDegrees
      rw [if_neg (by norm_num)]
      congr 1
      norm_num
    have hf1 : formatCoord ((5150735 : ℚ)/100000) = "51.50735".toList := by
      have hr : round ((5150735 : ℚ)/100000 * 100000) = 5150735 := by norm_num [round_eq]
      simp only [formatCoord, hr]
      decide
    have hf2 : formatCoord ((-12776 : ℚ)/100000) = "-0.12776".toList := by
      have hr : round ((-12776 : ℚ)/100000 * 100000) = -12776 := by norm_num [round_eq]
      simp only [formatCoord, hr]
      decide
    have h2 : gpsLookup (extractGps [(34853, ExifValue.gps
        [(2, ((51, 1), (30, 1), (2646, 100))), (4, ((0, 1), (0, 1), (-459936, 1000)))])]) 2 =
        some ((51, 1), (30, 1), (2646, 100)) := by decide
    have h4 : gpsLookup (extractGps [(34853, ExifValue.gps
        [(2, ((51, 1), (30, 1), (2646, 100))), (4, ((0, 1), (0, 1), (-459936, 1000)))])]) 4 =
        some ((0, 1), (0, 1), (-459936, 1000)) := by decide
    simp only [get_image_location]
    rw [if_neg (by decide)]
    simp only [h2, hc2, h4, hc4]
    rw [if_neg (by decide)]
    rw [if_pos ⟨by norm_num, by norm_num⟩]
    rw [hf1, hf2]
    decide

/-! ### Claim C7: copy failures are isolated -/

theorem copyGo_err_mem (ok : Nat → Bool) (outDir : Str) :
    ∀ (rs : List ImageRecord) (start i : Nat) (r : ImageRecord),
      (i, r) ∈ rs.enumFrom start → ok i = false →
      r.path ∈ (copyGo ok outDir start rs).2 := by
  intro rs
  induction rs with
  | nil => intro start i r hmem; simp [List.enumFrom] at hmem
  | cons a rs ih =>
    intro start i r hmem hok
    simp only [List.enumFrom, List.mem_cons] at hmem
    rcases hmem with heq | htail
    · obtain ⟨hi, hr⟩ := Prod.mk.injEq .. ▸ heq
      subst hi; subst hr
      simp only [copyGo, hok, if_false]
      exact List.mem_cons_self _ _
    · have hrec := ih (start + 1) i r htail hok
      by_cases hs : ok start
      · simpa [copyGo, hs] using hrec
      · simp only [copyGo, hs, if_false]
        exact List.mem_cons_of_mem _ hrec

theorem copyGo_succ_mem (ok : Nat → Bool) (outDir : Str) :
    ∀ (rs : List ImageRecord) (start i : Nat) (r : ImageRecord),
      (i, r) ∈ rs.enumFrom start → ok i = true →
      (i, r.path, outDir ++ '/' :: dstNameOf r i) ∈ (copyGo ok outDir start rs).1 := by
  intro rs
  induction rs with
  | nil => intro start i r hmem; simp [List.enumFrom] at hmem
  | cons a rs ih =>
    intro start i r hmem hok
    simp only [List.enumFrom, List.mem_cons] at hmem
    rcases hmem with heq | htail
    · obtain ⟨hi, hr⟩ := Prod.mk.injEq .. ▸ heq
      subst hi; subst hr
      simp only [copyGo, hok, if_true]
      exact List.mem_cons_self _ _
    · have hrec := ih (start + 1) i r htail hok
      by_cases hs : ok start
      · simp only [copyGo, hs, if_true]
        exact List.mem_cons_of_mem _ hrec
      · simpa [copyGo, hs] using hrec

theorem copyGo_succ_ok (ok : Nat → Bool) (outDir : Str) :
    ∀ (rs : List ImageRecord) (start : Nat),
      ∀ e ∈ (copyGo ok outDir start rs).1, ok e.1 = true := by
  intro rs
  induction rs with
  | nil => intro start e he; simp [copyGo] at he
  | cons a rs ih =>
    intro start e he
    by_cases hs : ok start
    · simp only [copyGo, hs, if_true, List.mem_cons] at he
      rcases he with rfl | he
      · exact hs
      · exact ih (start + 1) e he
    · simp only [copyGo, hs, if_false] at he
      exact ih (start + 1) e he

/-- C7: in `copy_selected_photos`, a failing copy (at 1-based rank `i`) is
reported in the per-item error list, every other selected record is still
copied (its success entry with its own rank and destination appears — the batch
is not aborted), and no failed item appears among the success messages. -/
theorem c7_copy_failures_isolated (ok : Nat → Bool) (outDir : Str)
    (selected : List ImageRecord) :
    (∀ i r, (i, r) ∈ selected.enumFrom 1 → ok i = false →
      r.path ∈ (copy_selected_photos ok outDir selected).2) ∧
    (∀ i r, (i, r) ∈ selected.enumFrom 1 → ok i = true →
      (i, r.path, outDir ++ '/' :: dstNameOf r i) ∈ (copy_selected_photos ok outDir selected).1) ∧
    (∀ e ∈ (copy_selected_photos ok outDir selected).1, ok e.1 = true) :=
  ⟨fun i r hm hok => copyGo_err_mem ok outDir selected 1 i r hm hok,
   fun i r hm hok => copyGo_succ_mem ok outDir selected 1 i r hm hok,
   fun e he => copyGo_succ_ok ok outDir selected 1 e he⟩

/-- Witness for C7: with the copy of the first item failing, its path lands in
the error list while the second item is still copied under rank 2. -/
theorem c7_copy_failures_isolated_witness :
    ("/in/ev/a.jpg".toList : Str) ∈
      (copy_selected_photos (fun i => decide (i ≠ 1)) "/out".toList
        [⟨"/in/ev/a.jpg".toList, 5, ⟨2024, 6, 1⟩, none⟩,
         ⟨"/in/ev/b.jpg".toList, 4, ⟨2024, 6, 1⟩, none⟩]).2 ∧
    ((2 : Nat), ("/in/ev/b.jpg".toList : Str), "/out".toList ++ '/' ::
        dstNameOf ⟨"/in/ev/b.jpg".toList, 4, ⟨2024, 6, 1⟩, none⟩ 2) ∈
      (copy_selected_photos (fun i => decide (i ≠ 1)) "/out".toList
        [⟨"/in/ev/a.jpg".toList, 5, ⟨2024, 6, 1⟩, none⟩,
         ⟨"/in/ev/b.jpg".toList, 4, ⟨2024, 6, 1⟩, none⟩]).1 :=
  ⟨(c7_copy_failures_isolated (fun i => decide (i ≠ 1)) "/out".toList
      [⟨"/in/ev/a.jpg".toList, 5, ⟨2024, 6, 1⟩, none⟩,
       ⟨"/in/ev/b.jpg".toList, 4, ⟨2024, 6, 1⟩, none⟩]).1 1
    ⟨"/in/ev/a.jpg".toList, 5, ⟨2024, 6, 1⟩, none⟩ (by decide) (by decide),
   (c7_copy_failures_isolated (fun i => decide (i ≠ 1)) "/out".toList
      [⟨"/in/ev/a.jpg".toList, 5, ⟨2024, 6, 1⟩, none⟩,
       ⟨"/in/ev/b.jpg".toList, 4, ⟨2024, 6, 1⟩, none⟩]).2.1 2
    ⟨"/in/ev/b.jpg".toList, 4, ⟨2024, 6, 1⟩, none⟩ (by decide) (by decide)⟩

/-! ### Claim C8: report rows -/

/-- C8 (counterexample): the report row of a selected record has exactly the
four fields `path`, `score`, `date`, `location` of the photo dictionary; no
cell holds the destination path the Materializer assigned to the record, so
the claim that every row contains the destination path fails. -/
theorem c8_counterexample :
    reportRows [⟨"/in/ev/a.jpg".toList, 5, ⟨2024, 6, 1⟩, none⟩] =
      [rowOf ⟨"/in/ev/a.jpg".toList, 5, ⟨2024, 6, 1⟩, none⟩] ∧
    (rowOf ⟨"/in/ev/a.jpg".toList, 5, ⟨2024, 6, 1⟩, none⟩).map Prod.fst =
      ["path", "score", "date", "location"] ∧
    (∀ e ∈ rowOf ⟨"/in/ev/a.jpg".toList, 5, ⟨2024, 6, 1⟩, none⟩,
      e.2 ≠ CellValue.str ("/out".toList ++ '/' ::
        dstNameOf ⟨"/in/ev/a.jpg".toList, 5, ⟨2024, 6, 1⟩, none⟩ 1)) := by
  refine ⟨by decide, by decide, by decide⟩

/-- C8 (amended): the report contains exactly one row per selected record, and
every row carries the record's original path, capture date, quality score and
(when present) location — but not the destination path. -/
theorem c8_one_row_per_record (selected : List ImageRecord) :
    (reportRows selected).length = selected.length ∧
    ∀ r ∈ selected,
      rowOf r ∈ reportRows selected ∧
      ("path", CellValue.str r.path) ∈ rowOf r ∧
      ("date", CellValue.date r.date) ∈ rowOf r ∧
      ("score", CellValue.num r.score) ∈ rowOf r ∧
      ∀ s, r.location = some s → ("location", CellValue.str s) ∈ rowOf r := by
  refine ⟨by simp [reportRows], ?_⟩
  intro r hr
  refine ⟨List.mem_map_of_mem rowOf hr, by simp [rowOf], by simp [rowOf], by simp [rowOf], ?_⟩
  intro s hs
  simp [rowOf, hs]

/-- Witness for C8's amended theorem at a concrete one-record selection. -/
theorem c8_one_row_per_record_witness :
    (reportRows [⟨"/in/ev/a.jpg".toList, 5, ⟨2024, 6, 1⟩, some "1_2".toList⟩]).length = 1 ∧
    ("path", CellValue.str "/in/ev/a.jpg".toList) ∈
      rowOf ⟨"/in/ev/a.jpg".toList, 5, ⟨2024, 6, 1⟩, some "1_2".toList⟩ ∧
    ("location", CellValue.str "1_2".toList) ∈
      rowOf ⟨"/in/ev/a.jpg".toList, 5, ⟨2024, 6, 1⟩, some "1_2".toList⟩ :=
  ⟨(c8_one_row_per_record [⟨"/in/ev/a.jpg".toList, 5, ⟨2024, 6, 1⟩, some "1_2".toList⟩]).1,
   ((c8_one_row_per_record [⟨"/in/ev/a.jpg".toList, 5, ⟨2024, 6, 1⟩, some "1_2".toList⟩]).2
      ⟨"/in/ev/a.jpg".toList, 5, ⟨2024, 6, 1⟩, some "1_2".toList⟩ (by decide)).2.1,
   (((c8_one_row_per_record [⟨"/in/ev/a.jpg".toList, 5, ⟨2024, 6, 1⟩, some "1_2".toList⟩]).2
      ⟨"/in/ev/a.jpg".toList, 5, ⟨2024, 6, 1⟩, some "1_2".toList⟩ (by decide)).2.2.2.2
      "1_2".toList rfl)⟩

/-! ### Claim C9: output-name injectivity -/

theorem upperLowerPairs_spec :
    ∀ p ∈ upperLowerPairs,
      p.1.isDigit = false ∧ p.2.isDigit = false ∧ p.1 ≠ '.' ∧ p.2 ≠ '.' := by decide

theorem lowerChar_isDigit (c : Char) : (lowerChar c).isDigit = c.isDigit := by
  unfold lowerChar
  cases hf : upperLowerPairs.find? (fun p => decide (p.1 = c)) with
  | none => rfl
  | some p =>
    have hmem := List.mem_of_find?_eq_some hf
    have hpc := List.find?_some hf
    simp only [decide_eq_true_eq] at hpc
    obtain ⟨h1, h2, _, _⟩ := upperLowerPairs_spec p hmem
    rw [h2, ← hpc, h1]

theorem lowerChar_eq_dot (c : Char) (h : lowerChar c = '.') : c = '.' := by
  unfold lowerChar at h
  cases hf : upperLowerPairs.find? (fun p => decide (p.1 = c)) with
  | none => rwa [hf] at h
  | some p =>
    rw [hf] at h
    obtain ⟨_, _, _, h4⟩ := upperLowerPairs_spec p (List.mem_of_find?_eq_some hf)
    exact absurd h h4

theorem lastDot_ge :
    ∀ (l : Str) (j : Nat) (rest : Str), l.drop j = '.' :: rest →
      ∃ i, lastDot l = some i ∧ j ≤ i := by
  intro l
  induction l with
  | nil => intro j rest hd; simp at hd
  | cons c cs ih =>
    intro j rest hd
    cases j with
    | zero =>
      have hc : c = '.' := by
        have : c :: cs = '.' :: rest := by simpa using hd
        exact (List.cons.injEq _ _ _ _ ▸ this).1
      cases hcs : lastDot cs with
      | some t => exact ⟨t + 1, by simp [lastDot, hcs], by omega⟩
      | none => exact ⟨0, by simp [lastDot, hcs, hc], Nat.le_refl 0⟩
    | succ j' =>
      have hd' : cs.drop j' = '.' :: rest := by simpa using hd
      obtain ⟨t, ht, hjt⟩ := ih j' rest hd'
      exact ⟨t + 1, by simp [lastDot, ht], by omega⟩

theorem dropWhile_append_all {α : Type} (p : α → Bool) :
    ∀ (a b : List α), (∀ c ∈ a, p c = true) → (a ++ b).dropWhile p = b.dropWhile p := by
  intro a
  induction a with
  | nil => intro b _; rfl
  | cons x xs ih =>
    intro b h
    have hx : p x = true := h x (List.mem_cons_self x xs)
    rw [List.cons_append, List.dropWhile_cons, if_pos hx]
    exact ih b (fun c hc => h c (List.mem_cons_of_mem x hc))

theorem takeWhile_append_all {α : Type} (p : α → Bool) :
    ∀ (a b : List α), (∀ c ∈ a, p c = true) → (a ++ b).takeWhile p = a ++ b.takeWhile p := by
  intro a
  induction a with
  | nil => intro b _; rfl
  | cons x xs ih =>
    intro b h
    have hx : p x = true := h x (List.mem_cons_self x xs)
    rw [List.cons_append, List.takeWhile_cons, if_pos hx, ih b
      (fun c hc => h c (List.mem_cons_of_mem x hc)), List.cons_append]

theorem digits_block_extract (Q s e : Str) (hs : ∀ c ∈ s, c.isDigit = true) (hsne : s ≠ [])
    (he : ∀ c ∈ e, c.isDigit = false) :
    ((Q ++ '_' :: (s ++ e)).reverse.dropWhile (fun c => !c.isDigit)).takeWhile
      (fun c => c.isDigit) = s.reverse := by
  have hrev : (Q ++ '_' :: (s ++ e)).reverse =
      e.reverse ++ (s.reverse ++ '_' :: Q.reverse) := by
    simp [List.reverse_append, List.append_assoc]
  rw [hrev]
  rw [dropWhile_append_all _ e.reverse _ (by
    intro c hc
    rw [List.mem_reverse] at hc
    simp [he c hc])]
  obtain ⟨c0, srest, hsr⟩ :=
    List.exists_cons_of_ne_nil (show s.reverse ≠ [] by simpa using hsne)
  have hc0 : c0.isDigit = true := by
    have hmem : c0 ∈ s.reverse := by rw [hsr]; exact List.mem_cons_self _ _
    exact hs c0 (List.mem_reverse.mp hmem)
  rw [hsr, List.cons_append, List.dropWhile_cons, if_neg (by simp [hc0])]
  rw [← List.cons_append, ← hsr]
  rw [takeWhile_append_all _ s.reverse _ (by
    intro c hc
    exact hs c (List.mem_reverse.mp hc))]
  have hund : ('_').isDigit = false := by decide
  rw [List.takeWhile_cons, if_neg (by simp [hund])]
  simp

theorem rank_inj_of_name_eq (Q1 Q2 e1 e2 : Str) (n1 n2 : Nat)
    (he1 : ∀ c ∈ e1, c.isDigit = false) (he2 : ∀ c ∈ e2, c.isDigit = false)
    (h : Q1 ++ '_' :: (natChars n1 ++ e1) = Q2 ++ '_' :: (natChars n2 ++ e2)) : n1 = n2 := by
  have h1 := digits_block_extract Q1 (natChars n1) e1 (natChars_digits n1) (natChars_ne_nil n1) he1
  have h2 := digits_block_extract Q2 (natChars n2) e2 (natChars_digits n2) (natChars_ne_nil n2) he2
  rw [h, h2] at h1
  exact natChars_inj (by simpa using congrArg List.reverse h1.symm)

theorem splitextExt_no_digit_of_image (name : Str) (h : isImageFile name = true) :
    ∀ c ∈ splitextExt name, c.isDigit = false := by
  have hsuf : ∃ suf, (suf = ".jpg".toList ∨ suf = ".jpeg".toList ∨ suf = ".png".toList) ∧
      suf <:+ name.map lowerChar := by
    simp only [isImageFile, Bool.or_eq_true, List.isSuffixOf_iff_suffix] at h
    rcases h with (h | h) | h
    · exact ⟨_, Or.inl rfl, h⟩
    · exact ⟨_, Or.inr (Or.inl rfl), h⟩
    · exact ⟨_, Or.inr (Or.inr rfl), h⟩
  obtain ⟨suf, hsufcases, pre, hpre⟩ := hsuf
  have hsufhead : ∃ sufT, suf = '.' :: sufT := by
    rcases hsufcases with rfl | rfl | rfl
    · exact ⟨_, rfl⟩
    · exact ⟨_, rfl⟩
    · exact ⟨_, rfl⟩
  have hsufnd : ∀ x ∈ suf, x.isDigit = false := by
    rcases hsufcases with rfl | rfl | rfl <;> decide
  obtain ⟨sufT, rfl⟩ := hsufhead
  have hmapdrop : (name.drop pre.length).map lowerChar = '.' :: sufT := by
    rw [List.map_drop, ← hpre, List.drop_left]
  have hdropne : name.drop pre.length ≠ [] := by
    intro hnil
    rw [hnil] at hmapdrop
    simp at hmapdrop
  obtain ⟨b, rest, hbr⟩ := List.exists_cons_of_ne_nil hdropne
  have hb : lowerChar b = '.' := by
    have h' := hmapdrop
    rw [hbr, List.map_cons] at h'
    exact (List.cons.injEq _ _ _ _ ▸ h').1
  have hbdot : b = '.' := lowerChar_eq_dot b hb
  rw [hbdot] at hbr
  obtain ⟨i, hlast, hki⟩ := lastDot_ge name pre.length rest hbr
  intro c hc
  unfold splitextExt at hc
  simp only [hlast] at hc
  by_cases hany : (name.take i).any (fun c => decide (c ≠ '.')) = true
  · rw [if_pos hany] at hc
    have hcdrop : c ∈ name.drop pre.length := by
      have hdd : name.drop i = (name.drop pre.length).drop (i - pre.length) := by
        rw [List.drop_drop]
        congr 1
        omega
      rw [hdd] at hc
      exact List.mem_of_mem_drop hc
    have hmem : lowerChar c ∈ '.' :: sufT := by
      rw [← hmapdrop]
      exact List.mem_map_of_mem lowerChar hcdrop
    have hnd : (lowerChar c).isDigit = false := hsufnd _ hmem
    rw [← lowerChar_isDigit]
    exact hnd
  · rw [if_neg hany] at hc
    simp at hc

/-- C9: over any selection of image files, the output names assigned by the
Materializer (ISO capture date, location string or sentinel, originating
directory name, 1-based rank, extension) are pairwise distinct — even for
records with identical source filenames — because the extension of an image
file contains no digits, so the trailing digit run of the name is exactly the
rank, which is unique per selected record. -/
theorem c9_output_names_injective (selected : List ImageRecord)
    (hfilt : ∀ r ∈ selected, isImageFile (basenameOf r.path) = true)
    (i j : Nat) (hi : i < selected.length) (hj : j < selected.length) (hij : i ≠ j) :
    dstNameOf (selected.get ⟨i, hi⟩) (i + 1) ≠ dstNameOf (selected.get ⟨j, hj⟩) (j + 1) := by
  intro heq
  have hext1 : ∀ c ∈ extOf (selected.get ⟨i, hi⟩).path, c.isDigit = false :=
    splitextExt_no_digit_of_image _ (hfilt _ (List.get_mem selected i hi))
  have hext2 : ∀ c ∈ extOf (selected.get ⟨j, hj⟩).path, c.isDigit = false :=
    splitextExt_no_digit_of_image _ (hfilt _ (List.get_mem selected j hj))
  have hshape : ∀ (r : ImageRecord) (idx : Nat),
      dstNameOf r idx =
        (dateIso r.date ++ '_' :: (locationString r.location ++ '_' :: folderOf r.path)) ++
          '_' :: (natChars idx ++ extOf r.path) := by
    intro r idx
    simp [dstNameOf, List.append_assoc]
  rw [hshape, hshape] at heq
  have := rank_inj_of_name_eq _ _ _ _ _ _ hext1 hext2 heq
  omega

/-- Witness for C9: two selected records with the same source file (identical
filenames) still get distinct output names, differing in rank alone. -/
theorem c9_output_names_injective_witness :
    isImageFile (basenameOf "/in/ev/a.jpg".toList) = true ∧
    dstNameOf ⟨"/in/ev/a.jpg".toList, 5, ⟨2024, 6, 1⟩, none⟩ 1 ≠
      dstNameOf ⟨"/in/ev/a.jpg".toList, 5, ⟨2024, 6, 1⟩, none⟩ 2 :=
  ⟨by decide,
   c9_output_names_injective
     [⟨"/in/ev/a.jpg".toList, 5, ⟨2024, 6, 1⟩, none⟩,
      ⟨"/in/ev/a.jpg".toList, 5, ⟨2024, 6, 1⟩, none⟩]
     (by decide) 0 1 (by decide) (by decide) (by decide)⟩

/-! ### Grouping lemmas -/

theorem bucketOf_cons_eq {e : PhotoDate × List ImageRecord}
    {es : List (PhotoDate × List ImageRecord)} {d : PhotoDate} (h : e.1 = d) :
    bucketOf (e :: es) d = e.2 := by
  simp [bucketOf, List.find?, h]

theorem bucketOf_cons_ne {e : PhotoDate × List ImageRecord}
    {es : List (PhotoDate × List ImageRecord)} {d : PhotoDate} (h : ¬ e.1 = d) :
    bucketOf (e :: es) d = bucketOf es d := by
  simp [bucketOf, List.find?, h]

theorem addToEvents_cons_eq {r : ImageRecord} {e : PhotoDate × List ImageRecord}
    {es : List (PhotoDate × List ImageRecord)} (h : e.1 = r.date) :
    addToEvents r (e :: es) = (e.1, e.2 ++ [r]) :: es := by
  rw [addToEvents, if_pos h]

theorem addToEvents_cons_ne {r : ImageRecord} {e : PhotoDate × List ImageRecord}
    {es : List (PhotoDate × List ImageRecord)} (h : ¬ e.1 = r.date) :
    addToEvents r (e :: es) = e :: addToEvents r es := by
  rw [addToEvents, if_neg h]

theorem bucketOf_addToEvents (r : ImageRecord) :
    ∀ (evs : List (PhotoDate × List ImageRecord)) (d : PhotoDate),
      bucketOf (addToEvents r evs) d =
        bucketOf evs d ++ (if r.date = d then [r] else []) := by
  intro evs
  induction evs with
  | nil =>
    intro d
    by_cases hd : r.date = d
    · rw [show addToEvents r [] = [(r.date, [r])] from rfl, bucketOf_cons_eq hd, if_pos hd]
      rfl
    · rw [show addToEvents r [] = [(r.date, [r])] from rfl, bucketOf_cons_ne hd, if_neg hd]
      rfl
  | cons e es ih =>
    intro d
    by_cases h1 : e.1 = r.date
    · rw [addToEvents_cons_eq h1]
      by_cases h2 : e.1 = d
      · rw [bucketOf_cons_eq (show (e.1, e.2 ++ [r]).1 = d from h2), bucketOf_cons_eq h2,
          if_pos (h1.symm.trans h2)]
      · rw [bucketOf_cons_ne (show ¬ (e.1, e.2 ++ [r]).1 = d from h2), bucketOf_cons_ne h2,
          if_neg (fun hrd => h2 (h1.trans hrd))]
        simp
    · rw [addToEvents_cons_ne h1]
      by_cases h2 : e.1 = d
      · rw [bucketOf_cons_eq h2, bucketOf_cons_eq h2,
          if_neg (fun hrd => h1 (h2.trans hrd.symm))]
        simp
      · rw [bucketOf_cons_ne h2, bucketOf_cons_ne h2, ih d]

theorem bucketOf_group_aux :
    ∀ (recs : List ImageRecord) (evs : List (PhotoDate × List ImageRecord)) (d : PhotoDate),
      bucketOf (recs.foldl (fun evs r => addToEvents r evs) evs) d =
        bucketOf evs d ++ recs.filter (fun r => decide (r.date = d)) := by
  intro recs
  induction recs with
  | nil => intro evs d; simp
  | cons r rs ih =>
    intro evs d
    rw [List.foldl_cons, ih, bucketOf_addToEvents]
    by_cases hd : r.date = d
    · rw [if_pos hd, List.filter_cons, if_pos (by simp [hd])]
      simp
    · rw [if_neg hd, List.filter_cons, if_neg (by simp [hd])]
      simp

/-- The event bucket of date `d` is exactly the scan-ordered sublist of records
with that date. -/
theorem bucketOf_group (recs : List ImageRecord) (d : PhotoDate) :
    bucketOf (group_photos_by_event recs) d =
      recs.filter (fun r => decide (r.date = d)) := by
  have h := bucketOf_group_aux recs [] d
  rw [group_photos_by_event]
  rw [h]
  rfl

theorem keys_addToEvents (r : ImageRecord) :
    ∀ evs : List (PhotoDate × List ImageRecord),
      (addToEvents r evs).map Prod.fst =
        if r.date ∈ evs.map Prod.fst then evs.map Prod.fst
        else evs.map Prod.fst ++ [r.date] := by
  intro evs
  induction evs with
  | nil => simp [addToEvents]
  | cons e es ih =>
    by_cases h1 : e.1 = r.date
    · rw [addToEvents_cons_eq h1]
      have hmem : r.date ∈ (e :: es).map Prod.fst := by
        rw [List.map_cons]
        exact List.mem_cons.mpr (Or.inl h1.symm)
      rw [if_pos hmem]
      simp
    · rw [addToEvents_cons_ne h1, List.map_cons, List.map_cons, ih]
      by_cases h2 : r.date ∈ es.map Prod.fst
      · rw [if_pos h2, if_pos (List.mem_cons_of_mem _ h2)]
      · rw [if_neg h2, if_neg (by
          rw [List.mem_cons]
          rintro (h | h)
          · exact h1 h.symm
          · exact h2 h)]
        simp

theorem group_keys_nodup_aux :
    ∀ (rs : List ImageRecord) (evs : List (PhotoDate × List ImageRecord)),
      ((evs.map Prod.fst).Nodup) →
      (((rs.foldl (fun evs r => addToEvents r evs) evs).map Prod.fst).Nodup) := by
  intro rs
  induction rs with
  | nil => intro evs h; exact h
  | cons r rs ih =>
    intro evs h
    rw [List.foldl_cons]
    apply ih
    rw [keys_addToEvents]
    by_cases hm : r.date ∈ evs.map Prod.fst
    · rwa [if_pos hm]
    · rw [if_neg hm]
      rw [(List.perm_append_singleton r.date (evs.map Prod.fst)).nodup_iff]
      exact List.nodup_cons.mpr ⟨hm, h⟩

/-- The keys of the grouped events are pairwise distinct. -/
theorem group_keys_nodup (recs : List ImageRecord) :
    ((group_photos_by_event recs).map Prod.fst).Nodup :=
  group_keys_nodup_aux recs [] (by simp)

theorem addToEvents_uniform (r : ImageRecord) :
    ∀ evs : List (PhotoDate × List ImageRecord),
      (∀ e ∈ evs, ∀ x ∈ e.2, x.date = e.1) →
      ∀ e ∈ addToEvents r evs, ∀ x ∈ e.2, x.date = e.1 := by
  intro evs
  induction evs with
  | nil =>
    intro _ e he x hx
    rw [show addToEvents r [] = [(r.date, [r])] from rfl] at he
    rcases List.mem_singleton.mp he with rfl
    rcases List.mem_singleton.mp hx with rfl
    rfl
  | cons e0 es ih =>
    intro h e he x hx
    by_cases h1 : e0.1 = r.date
    · rw [addToEvents_cons_eq h1] at he
      rcases List.mem_cons.mp he with rfl | he'
    
      · rcases List.mem_append.mp hx with hx' | hx'
        · exact h e0 (List.mem_cons_self _ _) x hx'
        · rcases List.mem_singleton.mp hx' with rfl
          exact h1.symm
      · exact h e (List.mem_cons_of_mem _ he') x hx
    · rw [addToEvents_cons_ne h1] at he
      rcases List.mem_cons.mp he with rfl | he'
      · exact h e (List.mem_cons_self _ _) x hx
      · exact ih (fun e' he'' => h e' (List.mem_cons_of_mem _ he'')) e he' x hx

theorem group_uniform_aux :
    ∀ (rs : List ImageRecord) (evs : List (PhotoDate × List ImageRecord)),
      (∀ e ∈ evs, ∀ x ∈ e.2, x.date = e.1) →
      ∀ e ∈ rs.foldl (fun evs r => addToEvents r evs) evs, ∀ x ∈ e.2, x.date = e.1 := by
  intro rs
  induction rs with
  | nil => intro evs h; exact h
  | cons r rs ih =>
    intro evs h
    rw [List.foldl_cons]
    exact ih _ (addToEvents_uniform r evs h)

/-- Every record in an event bucket carries the bucket's date. -/
theorem group_dates_uniform (recs : List ImageRecord) :
    ∀ e ∈ group_photos_by_event recs, ∀ x ∈ e.2, x.date = e.1 :=
  group_uniform_aux recs [] (by simp)

/-- A member event of the grouping is read back by `bucketOf` (keys are unique). -/
theorem bucketOf_of_mem :
    ∀ (evs : List (PhotoDate × List ImageRecord)), ((evs.map Prod.fst).Nodup) →
      ∀ e ∈ evs, bucketOf evs e.1 = e.2 := by
  intro evs
  induction evs with
  | nil => intro _ e he; exact absurd he (List.not_mem_nil e)
  | cons e0 es ih =>
    intro hnd e he
    rw [List.map_cons] at hnd
    have hnd' := List.nodup_cons.mp hnd
    rcases List.mem_cons.mp he with rfl | he'
    · exact bucketOf_cons_eq rfl
    · have hne : ¬ e0.1 = e.1 := fun h => hnd'.1 (h ▸ List.mem_map_of_mem Prod.fst he')
      rw [bucketOf_cons_ne hne]
      exact ih hnd'.2 e he'

/-! ### Selection lemmas -/

theorem mem_of_mem_sortTake {l : List ImageRecord} {n : Nat} {x : ImageRecord}
    (hx : x ∈ (sortByScoreDesc l).take n) : x ∈ l := by
  have hx' : x ∈ sortByScoreDesc l := List.mem_of_mem_take hx
  rw [sortByScoreDesc] at hx'
  exact (List.mem_insertionSort _).mp hx'

theorem mem_select_src (evs : List (PhotoDate × List ImageRecord)) (N G : Nat)
    (x : ImageRecord) (hx : x ∈ select_top_photos evs N G) : ∃ e ∈ evs, x ∈ e.2 := by
  rw [select_top_photos] at hx
  have hx2 : x ∈ (evs.map (fun e => (sortByScoreDesc e.2).take N)).flatten :=
    mem_of_mem_sortTake hx
  rw [List.mem_flatten] at hx2
  obtain ⟨l, hl, hxl⟩ := hx2
  rw [List.mem_map] at hl
  obtain ⟨e, he, rfl⟩ := hl
  exact ⟨e, he, mem_of_mem_sortTake hxl⟩

theorem countP_sortByScoreDesc (p : ImageRecord → Bool) (l : List ImageRecord) :
    (sortByScoreDesc l).countP p = l.countP p :=
  (List.perm_insertionSort _ l).countP_eq p

theorem pool_count_le (N : Nat) (d : PhotoDate) :
    ∀ evs : List (PhotoDate × List ImageRecord),
      ((evs.map Prod.fst).Nodup) → (∀ e ∈ evs, ∀ x ∈ e.2, x.date = e.1) →
      ((evs.map (fun e => (sortByScoreDesc e.2).take N)).flatten).countP
        (fun r => decide (r.date = d)) ≤ N := by
  intro evs
  induction evs with
  | nil => intro _ _; simp
  | cons e es ih =>
    intro hnd hU
    rw [List.map_cons] at hnd
    have hnd' := List.nodup_cons.mp hnd
    rw [List.map_cons, List.flatten_cons, List.countP_append]
    by_cases hd : e.1 = d
    · have htail : ((es.map (fun e => (sortByScoreDesc e.2).take N)).flatten).countP
          (fun r => decide (r.date = d)) = 0 := by
        rw [List.countP_eq_zero]
        intro x hx
        rw [List.mem_flatten] at hx
        obtain ⟨l, hl, hxl⟩ := hx
        rw [List.mem_map] at hl
        obtain ⟨e', he', rfl⟩ := hl
        have hxd : x.date = e'.1 := hU e' (List.mem_cons_of_mem e he') x
          (mem_of_mem_sortTake hxl)
        have hne : ¬ e'.1 = d := by
          intro hEq
          exact hnd'.1 ((hd.trans hEq.symm) ▸ List.mem_map_of_mem Prod.fst he')
        simp [hxd, hne]
      rw [htail, Nat.add_zero]
      calc ((sortByScoreDesc e.2).take N).countP (fun r => decide (r.date = d))
          ≤ ((sortByScoreDesc e.2).take N).length := List.countP_le_length _
        _ ≤ N := List.length_take_le N _
    · have hhead : ((sortByScoreDesc e.2).take N).countP (fun r => decide (r.date = d)) = 0 := by
        rw [List.countP_eq_zero]
        intro x hx
        have hxd := hU e (List.mem_cons_self e es) x (mem_of_mem_sortTake hx)
        simp [hxd, hd]
      rw [hhead, Nat.zero_add]
      exact ih hnd'.2 (fun e' he' => hU e' (List.mem_cons_of_mem e he'))

/-! ### Claim C3: both caps are enforced -/

/-- C3: for any scanned records and configured limits `N` (per-event, default
`TOP_PHOTOS_PER_EVENT = 5`) and `G` (global, default `GLOBAL_LIMIT = 150`), the
selection of `select_top_photos` over the grouped events has at most `N`
records of any single capture date and at most `G` records in total. -/
theorem c3_caps_enforced (recs : List ImageRecord) (N G : Nat) (d : PhotoDate) :
    ((select_top_photos (group_photos_by_event recs) N G).countP
        (fun r => decide (r.date = d))) ≤ N ∧
    (select_top_photos (group_photos_by_event recs) N G).length ≤ G := by
  constructor
  · rw [select_top_photos]
    calc ((sortByScoreDesc (((group_photos_by_event recs).map
          (fun e => (sortByScoreDesc e.2).take N)).flatten)).take G).countP
          (fun r => decide (r.date = d))
        ≤ (sortByScoreDesc (((group_photos_by_event recs).map
            (fun e => (sortByScoreDesc e.2).take N)).flatten)).countP
            (fun r => decide (r.date = d)) :=
          (List.take_sublist G _).countP_le _
      _ = (((group_photos_by_event recs).map
            (fun e => (sortByScoreDesc e.2).take N)).flatten).countP
            (fun r => decide (r.date = d)) := countP_sortByScoreDesc _ _
      _ ≤ N := pool_count_le N d _ (group_keys_nodup recs) (group_dates_uniform recs)
  · rw [select_top_photos]
    exact List.length_take_le G _

/-! ### Claim C4: stable tie-breaking -/

theorem filter_orderedInsert (p : ImageRecord → Bool)
    (hp : ∀ x y, p x = true → p y = true → x.score = y.score) (a : ImageRecord) :
    ∀ l : List ImageRecord,
      (l.orderedInsert (fun x y => y.score ≤ x.score) a).filter p =
        if p a = true then a :: l.filter p else l.filter p := by
  intro l
  induction l with
  | nil =>
    by_cases hpa : p a = true
    · simp [List.orderedInsert, List.filter_cons, hpa]
    · simp [List.orderedInsert, List.filter_cons, hpa]
  | cons b l ih =>
    simp only [List.orderedInsert]
    by_cases hr : b.score ≤ a.score
    · rw [if_pos hr]
      by_cases hpa : p a = true
      · rw [List.filter_cons, if_pos hpa]
      · rw [List.filter_cons, if_neg hpa]
    · rw [if_neg hr]
      rw [List.filter_cons, List.filter_cons]
      by_cases hpb : p b = true
      · have hpa : ¬ p a = true := by
          intro hpa
          exact hr (le_of_eq (hp a b hpa hpb).symm)
        rw [if_pos hpb, if_pos hpb, ih, if_neg hpa, if_neg hpa]
      · rw [if_neg hpb, if_neg hpb, ih]

theorem filter_insertionSortScore (p : ImageRecord → Bool)
    (hp : ∀ x y, p x = true → p y = true → x.score = y.score) :
    ∀ l : List ImageRecord,
      ((l.insertionSort (fun x y => y.score ≤ x.score)).filter p) = l.filter p := by
  intro l
  induction l with
  | nil => rfl
  | cons a l ih =>
    rw [List.insertionSort, filter_orderedInsert p hp a, List.filter_cons]
    by_cases hpa : p a = true
    · rw [if_pos hpa, if_pos hpa, ih]
    · rw [if_neg hpa, if_neg hpa, ih]

theorem filter_sortByScoreDesc (p : ImageRecord → Bool)
    (hp : ∀ x y, p x = true → p y = true → x.score = y.score) (l : List ImageRecord) :
    (sortByScoreDesc l).filter p = l.filter p := by
  rw [sortByScoreDesc]
  exact filter_insertionSortScore p hp l

theorem pool_filter_sublist (N : Nat) (p : ImageRecord → Bool) (recs : List ImageRecord)
    (d : PhotoDate) (hpd : ∀ x, p x = true → x.date = d)
    (hp : ∀ x y, p x = true → p y = true → x.score = y.score) :
    ∀ evs : List (PhotoDate × List ImageRecord),
      ((evs.map Prod.fst).Nodup) → (∀ e ∈ evs, ∀ x ∈ e.2, x.date = e.1) →
      (∀ e ∈ evs, e.2 = recs.filter (fun x => decide (x.date = e.1))) →
      (((evs.map (fun e => (sortByScoreDesc e.2).take N)).flatten).filter p).Sublist
        (recs.filter p) := by
  intro evs
  induction evs with
  | nil => intro _ _ _; simp
  | cons e es ih =>
    intro hnd hU hB
    rw [List.map_cons] at hnd
    have hnd' := List.nodup_cons.mp hnd
    rw [List.map_cons, List.flatten_cons, List.filter_append]
    by_cases hd : e.1 = d
    · have htail : ((es.map (fun e => (sortByScoreDesc e.2).take N)).flatten).filter p = [] := by
        rw [List.filter_eq_nil_iff]
        intro x hx
        rw [List.mem_flatten] at hx
        obtain ⟨l, hl, hxl⟩ := hx
        rw [List.mem_map] at hl
        obtain ⟨e', he', rfl⟩ := hl
        have hxd : x.date = e'.1 := hU e' (List.mem_cons_of_mem e he') x
          (mem_of_mem_sortTake hxl)
        intro hpx
        have : e'.1 = d := hxd ▸ hpd x hpx
        exact hnd'.1 ((hd.trans this.symm) ▸ List.mem_map_of_mem Prod.fst he')
      rw [htail, List.append_nil]
      have hstep1 : (((sortByScoreDesc e.2).take N).filter p).Sublist
          ((sortByScoreDesc e.2).filter p) := (List.take_sublist N _).filter p
      have hstep2 : (sortByScoreDesc e.2).filter p = recs.filter p := by
        rw [filter_sortByScoreDesc p hp, hB e (List.mem_cons_self e es), List.filter_filter]
        apply List.filter_congr
        intro x _
        by_cases hpx : p x = true
        · have hxd : decide (x.date = e.1) = true := by
            simp [hpd x hpx, hd]
          simp [hpx, hxd]
        · simp [Bool.eq_false_iff.mpr hpx]
      rw [hstep2] at hstep1
      exact hstep1
    · have hhead : ((sortByScoreDesc e.2).take N).filter p = [] := by
        rw [List.filter_eq_nil_iff]
        intro x hx hpx
        have hxd := hU e (List.mem_cons_self e es) x (mem_of_mem_sortTake hx)
        exact hd (hxd ▸ hpd x hpx)
      rw [hhead, List.nil_append]
      exact ih hnd'.2 (fun e' he' => hU e' (List.mem_cons_of_mem e he'))
        (fun e' he' => hB e' (List.mem_cons_of_mem e he'))

/-- C4 (counterexample): records `r1 (date A, score 9)`, `r2 (date B, score 5)`,
`r3 (date A, score 5)` are scanned in that order; `r2` precedes `r3` in the
scan, both survive selection with equal scores, yet the output is
`[r1, r3, r2]` — the global phase pools survivors event by event (event A
first), so the equal-score pair straddling two events comes out in event order,
not scan order. -/
theorem c4_counterexample :
    select_top_photos (group_photos_by_event
      [⟨"/in/a.jpg".toList, 9, ⟨2024, 6, 1⟩, none⟩,
       ⟨"/in/b.jpg".toList, 5, ⟨2024, 6, 2⟩, none⟩,
       ⟨"/in/c.jpg".toList, 5, ⟨2024, 6, 1⟩, none⟩]) 5 150 =
      [⟨"/in/a.jpg".toList, 9, ⟨2024, 6, 1⟩, none⟩,
       ⟨"/in/c.jpg".toList, 5, ⟨2024, 6, 1⟩, none⟩,
       ⟨"/in/b.jpg".toList, 5, ⟨2024, 6, 2⟩, none⟩] ∧
    (⟨"/in/b.jpg".toList, 5, ⟨2024, 6, 2⟩, none⟩ : ImageRecord).score =
      (⟨"/in/c.jpg".toList, 5, ⟨2024, 6, 1⟩, none⟩ : ImageRecord).score ∧
    (⟨"/in/b.jpg".toList, 5, ⟨2024, 6, 2⟩, none⟩ : ImageRecord) ≠
      ⟨"/in/c.jpg".toList, 5, ⟨2024, 6, 1⟩, none⟩ := by
  refine ⟨by decide, by decide, by decide⟩

/-- C4 (amended): for records of the *same event* (equal capture dates) with
equal scores, the final selection preserves their scan order: the selected
records of any fixed score and date form an order-preserving subsequence of the
scan. Across events the order is still deterministic but follows the events'
first-appearance order, as the counterexample shows. -/
theorem c4_same_event_ties_stable (recs : List ImageRecord) (N G : Nat)
    (s : ℚ) (d : PhotoDate) :
    ((select_top_photos (group_photos_by_event recs) N G).filter
        (fun r => decide (r.score = s) && decide (r.date = d))).Sublist
      (recs.filter (fun r => decide (r.score = s) && decide (r.date = d))) := by
  have hpd : ∀ x : ImageRecord,
      (decide (x.score = s) && decide (x.date = d)) = true → x.date = d := by
    intro x hx
    rw [Bool.and_eq_true] at hx
    exact of_decide_eq_true hx.2
  have hp : ∀ x y : ImageRecord,
      (decide (x.score = s) && decide (x.date = d)) = true →
      (decide (y.score = s) && decide (y.date = d)) = true → x.score = y.score := by
    intro x y hx hy
    rw [Bool.and_eq_true] at hx hy
    rw [of_decide_eq_true hx.1, of_decide_eq_true hy.1]
  rw [select_top_photos]
  have h1 := (List.take_sublist G (sortByScoreDesc (((group_photos_by_event recs).map
    (fun e => (sortByScoreDesc e.2).take N)).flatten))).filter
    (fun r => decide (r.score = s) && decide (r.date = d))
  have h2 : ((sortByScoreDesc (((group_photos_by_event recs).map
      (fun e => (sortByScoreDesc e.2).take N)).flatten)).filter
        (fun r => decide (r.score = s) && decide (r.date = d))) =
      ((((group_photos_by_event recs).map
        (fun e => (sortByScoreDesc e.2).take N)).flatten).filter
        (fun r => decide (r.score = s) && decide (r.date = d))) :=
    filter_sortByScoreDesc _ hp _
  rw [h2] at h1
  refine h1.trans ?_
  refine pool_filter_sublist N _ recs d hpd hp (group_photos_by_event recs)
    (group_keys_nodup recs) (group_dates_uniform recs) ?_
  intro e he
  rw [← bucketOf_of_mem (group_photos_by_event recs) (group_keys_nodup recs) e he,
    bucketOf_group]

/-! ### Scan-loop lemmas -/

theorem scanGo_keeps_first (md5 : List Nat → List Nat) :
    ∀ (fs : List ScanFile) (seen : List (Option (List Nat))) (i : Nat) (hi : i < fs.length),
      isImageFile fs[i].name = true →
      get_image_hash md5 fs[i] ∉ seen →
      (∀ l (hl : l < fs.length), l < i → isImageFile fs[l].name = true →
        get_image_hash md5 fs[l] ≠ get_image_hash md5 fs[i]) →
      toRecord fs[i] ∈ scanGo md5 seen fs := by
  intro fs
  induction fs with
  | nil => intro seen i hi; exact absurd hi (by simp)
  | cons f fs ih =>
    intro seen i hi himg hns hfirst
    cases i with
    | zero =>
      simp only [List.getElem_cons_zero] at himg hns ⊢
      rw [scanGo, if_pos himg, if_neg hns]
      exact List.mem_cons_self _ _
    | succ i' =>
      have hi' : i' < fs.length := by simpa using hi
      simp only [List.getElem_cons_succ] at himg hns ⊢
      by_cases himgf : isImageFile f.name = true
      · by_cases hmem : get_image_hash md5 f ∈ seen
        · rw [scanGo, if_pos himgf, if_pos hmem]
          refine ih seen i' hi' himg hns ?_
          intro l hl hli himgl
          have := hfirst (l + 1) (by simpa using Nat.succ_lt_succ hl) (by omega)
            (by simpa using himgl)
          simpa using this
        · rw [scanGo, if_pos himgf, if_neg hmem]
          refine List.mem_cons_of_mem _ (ih (get_image_hash md5 f :: seen) i' hi' himg ?_ ?_)
          · rw [List.mem_cons]
            rintro (heq | hseen)
            · exact hfirst 0 (by simp) (by omega) (by simpa using himgf)
                (by simpa using heq.symm)
            · exact hns hseen
          · intro l hl hli himgl
            have := hfirst (l + 1) (by simpa using Nat.succ_lt_succ hl) (by omega)
              (by simpa using himgl)
            simpa using this
      · rw [scanGo, if_neg himgf]
        refine ih seen i' hi' himg hns ?_
        intro l hl hli himgl
        have := hfirst (l + 1) (by simpa using Nat.succ_lt_succ hl) (by omega)
          (by simpa using himgl)
        simpa using this

theorem scanGo_mem_src (md5 : List Nat → List Nat) :
    ∀ (fs : List ScanFile) (seen : List (Option (List Nat))) (r : ImageRecord),
      r ∈ scanGo md5 seen fs →
      ∃ k, ∃ (hk : k < fs.length), isImageFile fs[k].name = true ∧ r = toRecord fs[k] ∧
        get_image_hash md5 fs[k] ∉ seen ∧
        ∀ l (hl : l < fs.length), l < k → isImageFile fs[l].name = true →
          get_image_hash md5 fs[l] ≠ get_image_hash md5 fs[k] := by
  intro fs
  induction fs with
  | nil => intro seen r hr; simp [scanGo] at hr
  | cons f fs ih =>
    intro seen r hr
    by_cases himgf : isImageFile f.name = true
    · by_cases hmem : get_image_hash md5 f ∈ seen
      · rw [scanGo, if_pos himgf, if_pos hmem] at hr
        obtain ⟨k, hk, h1, h2, h3, h4⟩ := ih seen r hr
        refine ⟨k + 1, by simpa using Nat.succ_lt_succ hk, by simpa using h1,
          by simpa using h2, by simpa using h3, ?_⟩
        intro l hl hlk himgl
        cases l with
        | zero =>
          simp only [List.getElem_cons_zero] at himgl ⊢
          intro heq
          rw [List.getElem_cons_succ] at heq
          exact h3 (heq ▸ hmem)
        | succ l' =>
          have hl' : l' < fs.length := by simpa using hl
          have := h4 l' hl' (by omega) (by simpa using himgl)
          simpa using this
      · rw [scanGo, if_pos himgf, if_neg hmem] at hr
        rcases List.mem_cons.mp hr with rfl | hr'
        · exact ⟨0, by simp, by simpa using himgf, by simp, by simpa using hmem,
            fun l hl hl0 => absurd hl0 (by omega)⟩
        · obtain ⟨k, hk, h1, h2, h3, h4⟩ := ih (get_image_hash md5 f :: seen) r hr'
          rw [List.mem_cons] at h3
          push_neg at h3
          refine ⟨k + 1, by simpa using Nat.succ_lt_succ hk, by simpa using h1,
            by simpa using h2, by simpa using h3.2, ?_⟩
          intro l hl hlk himgl
          cases l with
          | zero =>
            simp only [List.getElem_cons_zero, List.getElem_cons_succ]
            exact fun heq => h3.1 heq.symm
          | succ l' =>
            have hl' : l' < fs.length := by simpa using hl
            have := h4 l' hl' (by omega) (by simpa using himgl)
            simpa using this
    · rw [scanGo, if_neg himgf] at hr
      obtain ⟨k, hk, h1, h2, h3, h4⟩ := ih seen r hr
      refine ⟨k + 1, by simpa using Nat.succ_lt_succ hk, by simpa using h1,
        by simpa using h2, by simpa using h3, ?_⟩
      intro l hl hlk himgl
      cases l with
      | zero =>
        rw [List.getElem_cons_zero] at himgl
        exact absurd himgl himgf
      | succ l' =>
        have hl' : l' < fs.length := by simpa using hl
        have := h4 l' hl' (by omega) (by simpa using himgl)
        simpa using this

theorem addToEvents_pred (P : ImageRecord → Prop) (r : ImageRecord) :
    ∀ evs : List (PhotoDate × List ImageRecord),
      (∀ e ∈ evs, ∀ x ∈ e.2, P x) → P r →
      ∀ e ∈ addToEvents r evs, ∀ x ∈ e.2, P x := by
  intro evs
  induction evs with
  | nil =>
    intro _ hPr e he x hx
    rw [show addToEvents r [] = [(r.date, [r])] from rfl] at he
    rcases List.mem_singleton.mp he with rfl
    rcases List.mem_singleton.mp hx with rfl
    exact hPr
  | cons e0 es ih =>
    intro h hPr e he x hx
    by_cases h1 : e0.1 = r.date
    · rw [addToEvents_cons_eq h1] at he
      rcases List.mem_cons.mp he with rfl | he'
      · rcases List.mem_append.mp hx with hx' | hx'
        · exact h e0 (List.mem_cons_self _ _) x hx'
        · rcases List.mem_singleton.mp hx' with rfl
          exact hPr
      · exact h e (List.mem_cons_of_mem _ he') x hx
    · rw [addToEvents_cons_ne h1] at he
      rcases List.mem_cons.mp he with rfl | he'
      · exact h e (List.mem_cons_self _ _) x hx
      · exact ih (fun e' he'' => h e' (List.mem_cons_of_mem _ he'')) hPr e he' x hx

theorem foldl_addToEvents_pred (P : ImageRecord → Prop) :
    ∀ (rs : List ImageRecord) (evs : List (PhotoDate × List ImageRecord)),
      (∀ e ∈ evs, ∀ x ∈ e.2, P x) → (∀ r ∈ rs, P r) →
      ∀ e ∈ rs.foldl (fun evs r => addToEvents r evs) evs, ∀ x ∈ e.2, P x := by
  intro rs
  induction rs with
  | nil => intro evs h _; exact h
  | cons r rs ih =>
    intro evs h hr
    rw [List.foldl_cons]
    exact ih _ (addToEvents_pred P r evs h (hr r (List.mem_cons_self r rs)))
      (fun r' hr' => hr r' (List.mem_cons_of_mem r hr'))

/-- Every record of an event bucket came from the grouped input. -/
theorem group_mem_src (recs : List ImageRecord) :
    ∀ e ∈ group_photos_by_event recs, ∀ x ∈ e.2, x ∈ recs :=
  foldl_addToEvents_pred (fun x => x ∈ recs) recs [] (by simp) (fun _ h => h)

theorem mem_select_in_scan {recs : List ImageRecord} {N G : Nat} {r : ImageRecord}
    (hr : r ∈ select_top_photos (group_photos_by_event recs) N G) : r ∈ recs := by
  obtain ⟨e, he, hre⟩ := mem_select_src _ N G r hr
  exact group_mem_src recs e he r hre

theorem copyGo_src_mem (ok : Nat → Bool) (outDir : Str) :
    ∀ (rs : List ImageRecord) (start : Nat),
      ∀ e ∈ (copyGo ok outDir start rs).1, ∃ r ∈ rs, e.2.1 = r.path := by
  intro rs
  induction rs with
  | nil => intro start e he; simp [copyGo] at he
  | cons a rs ih =>
    intro start e he
    by_cases hs : ok start = true
    · rw [show copyGo ok outDir start (a :: rs) =
          ((start, a.path, outDir ++ '/' :: dstNameOf a start) :: (copyGo ok outDir (start + 1) rs).1,
            (copyGo ok outDir (start + 1) rs).2) from by rw [copyGo, if_pos hs]] at he
      rcases List.mem_cons.mp he with rfl | he'
      · exact ⟨a, List.mem_cons_self _ _, rfl⟩
      · obtain ⟨r, hr, hp⟩ := ih (start + 1) e he'
        exact ⟨r, List.mem_cons_of_mem a hr, hp⟩
    · rw [show copyGo ok outDir start (a :: rs) =
          ((copyGo ok outDir (start + 1) rs).1,
            a.path :: (copyGo ok outDir (start + 1) rs).2) from by rw [copyGo, if_neg hs]] at he
      obtain ⟨r, hr, hp⟩ := ih (start + 1) e he
      exact ⟨r, List.mem_cons_of_mem a hr, hp⟩

/-! ### Claim C2: first-seen wins, duplicates never resurface -/

/-- C2: when a readable file at scan position `i` is the first image file whose
content hash is `md5 b`, its record is kept; any kept record sourced from a
file with that hash is that same record (exactly one record per fingerprint);
and every later byte-identical image file is absent from the scan results, from
the selection, from the report rows, and from the successful copies. -/
theorem c2_first_seen_wins (md5 : List Nat → List Nat) (files : List ScanFile)
    (N G : Nat) (ok : Nat → Bool) (outDir : Str) (b : List Nat) (i : Nat)
    (hnd : (files.map pathOf).Nodup)
    (hi : i < files.length)
    (himg : isImageFile files[i].name = true)
    (hbytes : files[i].bytes = some b)
    (hfirst : ∀ l (hl : l < files.length), l < i → isImageFile files[l].name = true →
      get_image_hash md5 files[l] ≠ some (md5 b)) :
    toRecord files[i] ∈ scanPhotos md5 files ∧
    (∀ r ∈ scanPhotos md5 files, ∀ k (hk : k < files.length), r = toRecord files[k] →
      get_image_hash md5 files[k] = some (md5 b) → r = toRecord files[i]) ∧
    ∀ j (hj : j < files.length), i < j → isImageFile files[j].name = true →
      files[j].bytes = some b →
      (∀ r ∈ scanPhotos md5 files, r.path ≠ pathOf files[j]) ∧
      pathOf files[j] ∉
        (select_top_photos (group_photos_by_event (scanPhotos md5 files)) N G).map
          ImageRecord.path ∧
      (∀ row ∈ reportRows (select_top_photos (group_photos_by_event (scanPhotos md5 files)) N G),
        ("path", CellValue.str (pathOf files[j])) ∉ row) ∧
      (∀ e ∈ (copy_selected_photos ok outDir
          (select_top_photos (group_photos_by_event (scanPhotos md5 files)) N G)).1,
        e.2.1 ≠ pathOf files[j]) := by
  have hashI : get_image_hash md5 files[i] = some (md5 b) := by
    rw [get_image_hash, hbytes]
    rfl
  have hinj : ∀ k k' (hk : k < files.length) (hk' : k' < files.length),
      pathOf files[k] = pathOf files[k'] → k = k' := by
    intro k k' hk hk' hp
    have h1 : (files.map pathOf).get ⟨k, by simpa using hk⟩ =
        (files.map pathOf).get ⟨k', by simpa using hk'⟩ := by
      simpa [List.get_eq_getElem, List.getElem_map] using hp
    have h2 := List.nodup_iff_injective_get.mp hnd h1
    simpa using congrArg Fin.val h2
  refine ⟨?_, ?_, ?_⟩
  · rw [scanPhotos]
    refine scanGo_keeps_first md5 files [] i hi himg (by simp) ?_
    intro l hl hli himgl heq
    exact hfirst l hl hli himgl (heq.trans hashI)
  · intro r hr k hk hrk hashk
    obtain ⟨k', hk', h1, h2, h3, h4⟩ := scanGo_mem_src md5 files [] r hr
    have hpk : pathOf files[k] = pathOf files[k'] := by
      have heq : toRecord files[k] = toRecord files[k'] := by rw [← hrk, h2]
      exact congrArg ImageRecord.path heq
    have hkk' := hinj k k' hk hk' hpk
    subst hkk'
    rcases Nat.lt_trichotomy k i with hlt | heqi | hgt
    · exact absurd hashk (hfirst k hk hlt h1)
    · subst heqi
      exact hrk
    · exact absurd (hashI.trans hashk.symm) (h4 i hi hgt himg)
  · intro j hj hij himgj hbj
    have hashJ : get_image_hash md5 files[j] = some (md5 b) := by
      rw [get_image_hash, hbj]
      rfl
    have ha : ∀ r ∈ scanPhotos md5 files, r.path ≠ pathOf files[j] := by
      intro r hr hpath
      obtain ⟨k', hk', h1, h2, h3, h4⟩ := scanGo_mem_src md5 files [] r hr
      have hpk : pathOf files[k'] = pathOf files[j] := by
        have : r.path = pathOf files[k'] := congrArg ImageRecord.path h2
        rw [← this, hpath]
      have hk'j := hinj k' j hk' hj hpk
      subst hk'j
      exact h4 i hi hij himg (hashI.trans hashJ.symm)
    refine ⟨ha, ?_, ?_, ?_⟩
    · intro hmem
      rw [List.mem_map] at hmem
      obtain ⟨r, hrsel, hrp⟩ := hmem
      exact ha r (mem_select_in_scan hrsel) hrp
    · intro row hrow hmem
      rw [reportRows, List.mem_map] at hrow
      obtain ⟨r, hrsel, rfl⟩ := hrow
      have hrj : r.path ≠ pathOf files[j] := ha r (mem_select_in_scan hrsel)
      simp only [rowOf, List.mem_cons, List.not_mem_nil, or_false] at hmem
      rcases hmem with h | h | h | h
      · have hv := congrArg Prod.snd h
        simp only [CellValue.str.injEq] at hv
        exact hrj hv.symm
      · exact absurd (show "path" = "score" from congrArg Prod.fst h) (by decide)
      · exact absurd (show "path" = "date" from congrArg Prod.fst h) (by decide)
      · exact absurd (show "path" = "location" from congrArg Prod.fst h) (by decide)
    · intro e he heq
      obtain ⟨r, hrsel, hep⟩ := copyGo_src_mem ok outDir _ 1 e he
      exact ha r (mem_select_in_scan hrsel) (hep ▸ heq)

/-- Witness for C2: two byte-identical readable files; the first is kept, and
no kept record carries the second file's path. -/
theorem c2_first_seen_wins_witness :
    toRecord ⟨"/in".toList, "a.jpg".toList, some [7], 5, ⟨2024, 6, 1⟩, none⟩ ∈
      scanPhotos (fun l => l)
        [⟨"/in".toList, "a.jpg".toList, some [7], 5, ⟨2024, 6, 1⟩, none⟩,
         ⟨"/in".toList, "b.jpg".toList, some [7], 6, ⟨2024, 6, 1⟩, none⟩] ∧
    ∀ r ∈ scanPhotos (fun l => l)
        [⟨"/in".toList, "a.jpg".toList, some [7], 5, ⟨2024, 6, 1⟩, none⟩,
         ⟨"/in".toList, "b.jpg".toList, some [7], 6, ⟨2024, 6, 1⟩, none⟩],
      r.path ≠ pathOf ⟨"/in".toList, "b.jpg".toList, some [7], 6, ⟨2024, 6, 1⟩, none⟩ := by
  have h := c2_first_seen_wins (fun l => l)
    [⟨"/in".toList, "a.jpg".toList, some [7], 5, ⟨2024, 6, 1⟩, none⟩,
     ⟨"/in".toList, "b.jpg".toList, some [7], 6, ⟨2024, 6, 1⟩, none⟩]
    TOP_PHOTOS_PER_EVENT GLOBAL_LIMIT (fun _ => true) "/out".toList [7] 0
    (by decide) (by decide) (by decide) rfl
    (fun l hl hl0 => absurd hl0 (Nat.not_lt_zero l))
  exact ⟨h.1, (h.2.2 1 (by decide) (by decide) (by decide) rfl).1⟩

/-! ### Claim C1: unreadable files and the `None` fingerprint -/

/-- C1 (demonstration of the divergence): two distinct unreadable image files
both hash to `None`; after the first file's `None` enters `seen_hashes`, the
second unreadable file is skipped as a duplicate, so only the first file's
record survives the scan — the second never reaches scoring, grouping or
selection, contradicting the requirement that an unreadable file's "unknown"
fingerprint match nothing. -/
theorem c1_unreadable_files_are_deduplicated :
    get_image_hash (fun l => l)
      ⟨"/in".toList, "a.jpg".toList, none, 1, ⟨2024, 1, 1⟩, none⟩ = none ∧
    get_image_hash (fun l => l)
      ⟨"/in".toList, "b.jpg".toList, none, 2, ⟨2024, 1, 2⟩, none⟩ = none ∧
    (⟨"/in".toList, "a.jpg".toList, none, 1, ⟨2024, 1, 1⟩, none⟩ : ScanFile) ≠
      ⟨"/in".toList, "b.jpg".toList, none, 2, ⟨2024, 1, 2⟩, none⟩ ∧
    scanPhotos (fun l => l)
      [⟨"/in".toList, "a.jpg".toList, none, 1, ⟨2024, 1, 1⟩, none⟩,
       ⟨"/in".toList, "b.jpg".toList, none, 2, ⟨2024, 1, 2⟩, none⟩] =
      [toRecord ⟨"/in".toList, "a.jpg".toList, none, 1, ⟨2024, 1, 1⟩, none⟩] := by
  refine ⟨rfl, rfl, by decide, by decide⟩
